import Mathlib

/-!
A shallow embedding of `somajo/tokenizer.py` (the SoMaJo tokenizer).

Modelling choices:
* Python strings are `List Char` (`Str`); slicing, substring test (`in`),
  whitespace splitting and stripping are implemented directly on lists.
* The `regex` patterns compiled in `Tokenizer.__init__` are abstracted as
  matchers of type `Regex := Str → List RMatch`: a matcher returns, like
  `finditer`, the list of non-overlapping matches in left-to-right order,
  each match carrying its span and its dict of named groups.  The simple
  patterns that concrete theorems need (`emoji`, `mention`, the dot rule
  `(\.)`, the arrow rules) are implemented concretely below and are exact
  translations of the corresponding regular expressions.
* `random.choice`-based placeholder generation is modelled with an explicit
  oracle: a list of candidate strings consumed in order.  The Python
  rejection loop starts from the empty string, which is a substring of every
  text, so the loop is equivalent to drawing candidates until one is
  accepted; an exhausted oracle (`none`) models divergence of the loop.
* Python `dict` state (`self.mapping`, the per-call `replacements`) is an
  association list where insertion prepends; `dlookup` returns the most
  recently inserted binding, which agrees with `dict` lookup, and key
  membership agrees with `in`.  Iteration order over these dicts is never
  used by the source.
-/

abbrev Str := List Char

/-- Whitespace as used by Python's `str.split` / `str.strip` and by `\s`
on the ASCII inputs considered here. -/
def isSpace (c : Char) : Bool :=
  c = ' ' || c = '\t' || c = '\n' || c = '\r' || c = '\x0b' || c = '\x0c'

/-- Letters; models `[[:alpha:]]` on the ASCII inputs considered here. -/
def isAlphaCh (c : Char) : Bool := c.isAlpha

/-- Word characters; models `\w` on the ASCII inputs considered here. -/
def isWordChar (c : Char) : Bool := c.isAlphanum || c = '_'

/-- The `Token` namedtuple of the source: `(token, token_class)`. -/
structure Token where
  token : Str
  token_class : String
deriving DecidableEq, Repr

/-- Association-list lookup with Python-dict semantics: the most recently
inserted binding for a key (bindings are prepended) wins. -/
def dlookup {α : Type} : List (Str × α) → Str → Option α
  | [], _ => none
  | (k, v) :: rest, key => if k = key then some v else dlookup rest key

/-- Python's substring test `p in t`. -/
def occurs : Str → Str → Bool
  | p, [] => p.isEmpty
  | p, c :: rest => p.isPrefixOf (c :: rest) || occurs p rest

/-- Python slice `text[b:e]`. -/
def pySlice (l : Str) (b e : Nat) : Str := (l.take e).drop b

/-- Worker for `splitWords`: `cur` is the reversed current word. -/
def splitWordsAux : Str → Str → List Str
  | cur, [] => if cur.isEmpty then [] else [cur.reverse]
  | cur, c :: rest =>
    if isSpace c then
      if cur.isEmpty then splitWordsAux [] rest
      else cur.reverse :: splitWordsAux [] rest
    else splitWordsAux (c :: cur) rest

/-- Python's `str.split()` with no argument: split on whitespace runs,
dropping empty pieces. -/
def splitWords (s : Str) : List Str := splitWordsAux [] s

/-- Python's `" ".join`. -/
def joinSpace : List Str → Str
  | [] => []
  | r :: rs =>
    match rs with
    | [] => r
    | _ :: _ => r ++ ' ' :: joinSpace rs

/-- Python's `str.strip` with an arbitrary character class. -/
def pyStrip (p : Char → Bool) (s : Str) : Str :=
  ((s.dropWhile p).reverse.dropWhile p).reverse

/-- Python's `str.strip()` (whitespace). -/
def stripSpaces (s : Str) : Str := pyStrip isSpace s

/-- Python's `str.strip(".")`. -/
def stripDots (s : Str) : Str := pyStrip (fun c => c = '.') s

/-- Worker for `collapse_spaces`: the flag records whether the previous
character was whitespace (in which case further whitespace is dropped). -/
def collapseAux : Bool → Str → Str
  | _, [] => []
  | inRun, c :: rest =>
    if isSpace c then
      if inRun then collapseAux true rest else ' ' :: collapseAux true rest
    else c :: collapseAux false rest

/-- The substitution `self.spaces.sub(" ", text)`: replace every maximal
whitespace run by a single space. -/
def collapse_spaces (s : Str) : Str := collapseAux false s

/-- The alphabet used by `_get_unique_string`. -/
def alphabet : Str := "abcdefghijklmnopqrstuvwxyz".toList

/-- A string that `random.choice`-based generation can actually produce:
exactly `unique_string_length = 7` characters, all lowercase letters. -/
def validDraw (s : Str) : Bool :=
  s.length == 7 && s.all (fun c => decide (c ∈ alphabet))

/-- One `finditer` match: its span (`match.span()`) and its named groups
(`match.groupdict()`, as (name, value) pairs).  `match.group(0)` is the
slice of the text at the span, as for every real regex match. -/
structure RMatch where
  mbegin : Nat
  mend : Nat
  groups : List (String × Str)
deriving DecidableEq, Repr

/-- A compiled pattern, abstracted to its `finditer` behaviour: the
non-overlapping matches in left-to-right order. -/
abbrev Regex := Str → List RMatch

/-- The mutable state of one `tokenize` call: `self.mapping` plus the
stream of random candidate strings not yet consumed. -/
structure TState where
  mapping : List (Str × Token)
  rand : List Str
deriving DecidableEq, Repr

/-- `Tokenizer._get_unique_string`.  The Python loop
`while unique_string in self.mapping or unique_string in text:` starts
from `""`, which is a substring of every text, so it is equivalent to
drawing random candidates until one is neither a key of the mapping nor a
substring of `text`.  The oracle list supplies the draws; an exhausted
oracle models an infinite rejection loop. -/
def get_unique_string (mapping : List (Str × Token)) (text : Str) :
    List Str → Option (Str × List Str)
  | [] => none
  | c :: rest =>
    if (dlookup mapping c).isSome || occurs c text then
      get_unique_string mapping text rest
    else some (c, rest)

/-- The loop of `Tokenizer._multipart_replace`: one fresh placeholder per
part, each registered in the mapping under the rule's class; returns the
placeholders in order. -/
def multipart_draws (text : Str) (token_class : String) :
    List Str → TState → Option (TState × List Str)
  | [], st => some (st, [])
  | part :: ps, st =>
    match get_unique_string st.mapping text st.rand with
    | none => none
    | some (r, rand2) =>
      match multipart_draws text token_class ps
          ⟨(r, ⟨part, token_class⟩) :: st.mapping, rand2⟩ with
      | none => none
      | some (st2, rs) => some (st2, r :: rs)

/-- `Tokenizer._multipart_replace`: placeholders joined by single spaces. -/
def multipart_replace (text : Str) (parts : List Str) (token_class : String)
    (st : TState) : Option (TState × Str) :=
  (multipart_draws text token_class parts st).map (fun p => (p.1, joinSpace p.2))

/-- Lexicographic comparison of character lists by code point: the order
Python's `sorted` uses on strings. -/
def charListLe : List Char → List Char → Bool
  | [], _ => true
  | _ :: _, [] => false
  | a :: as, b :: bs => if a = b then charListLe as bs else decide (a < b)

theorem charListLe_total : ∀ (a b : List Char),
    charListLe a b = true ∨ charListLe b a = true
  | [], _ => Or.inl rfl
  | _ :: _, [] => Or.inr rfl
  | a :: as, b :: bs => by
    by_cases hab : a = b
    · subst hab
      rcases charListLe_total as bs with h | h
      · left
        rw [charListLe, if_pos rfl]
        exact h
      · right
        rw [charListLe, if_pos rfl]
        exact h
    · rcases lt_or_gt_of_ne hab with h | h
      · left
        rw [charListLe, if_neg hab]
        exact decide_eq_true h
      · right
        rw [charListLe, if_neg (Ne.symm hab)]
        exact decide_eq_true h

theorem charListLe_trans : ∀ (a b c : List Char),
    charListLe a b = true → charListLe b c = true → charListLe a c = true
  | [], _, _, _, _ => rfl
  | _ :: _, [], _, h, _ => by rw [charListLe] at h; cases h
  | _ :: _, _ :: _, [], _, h => by rw [charListLe] at h; cases h
  | a :: as, b :: bs, c :: cs, h1, h2 => by
    rw [charListLe] at h1 h2 ⊢
    by_cases hab : a = b
    · subst hab
      by_cases hbc : a = c
      · subst hbc
        rw [if_pos rfl] at h1 h2 ⊢
        exact charListLe_trans _ _ _ h1 h2
      · rw [if_pos rfl] at h1
        rw [if_neg hbc] at h2 ⊢
        exact h2
    · by_cases hbc : b = c
      · subst hbc
        rw [if_neg hab] at h1 ⊢
        exact h1
      · rw [if_neg hab] at h1
        rw [if_neg hbc] at h2
        have hlt : a < c :=
          lt_trans (of_decide_eq_true h1) (of_decide_eq_true h2)
        rw [if_neg (ne_of_lt hlt)]
        exact decide_eq_true hlt

/-- Ordering used by `sorted(match.groupdict().items())`: by group name
(group names of one pattern are distinct). -/
def groupLe (a b : String × Str) : Prop :=
  charListLe a.1.data b.1.data = true

instance : DecidableRel groupLe := fun a b => by
  unfold groupLe; infer_instance

instance : IsTotal (String × Str) groupLe :=
  ⟨fun a b => charListLe_total a.1.data b.1.data⟩

instance : IsTrans (String × Str) groupLe :=
  ⟨fun _ _ _ h h' => charListLe_trans _ _ _ h h'⟩

/-- `sorted(match.groupdict().items())`. -/
def sortGroups (gs : List (String × Str)) : List (String × Str) :=
  List.insertionSort groupLe gs

/-- The first loop of `Tokenizer._replace_regex`: process the matches in
order, threading the mapping/oracle state and accumulating the
`replacements` dict (`d`, keyed by `match.group(0)`, later bindings
shadowing earlier ones). -/
def process_matches (token_class : String) (text : Str) :
    List RMatch → TState → List (Str × Str) → Option (TState × List (Str × Str))
  | [], st, d => some (st, d)
  | m :: ms, st, d =>
    if 0 < m.groups.length then
      match multipart_replace text ((sortGroups m.groups).map Prod.snd)
          token_class st with
      | none => none
      | some (st2, mp) =>
        process_matches token_class text ms st2
          ((pySlice text m.mbegin m.mend, mp) :: d)
    else
      match get_unique_string st.mapping text st.rand with
      | none => none
      | some (r, rand2) =>
        process_matches token_class text ms
          ⟨(r, ⟨pySlice text m.mbegin m.mend, token_class⟩) :: st.mapping, rand2⟩
          ((pySlice text m.mbegin m.mend, r) :: d)

/-- Lexicographic order on spans, as used by `sorted` on Python pairs. -/
def spanLe (a b : Nat × Nat) : Prop :=
  a.1 < b.1 ∨ (a.1 = b.1 ∧ a.2 ≤ b.2)

instance : DecidableRel spanLe := fun a b => by
  unfold spanLe; infer_instance

instance : IsTotal (Nat × Nat) spanLe := by
  constructor
  intro a b
  rcases Nat.lt_trichotomy a.1 b.1 with h | h | h
  · exact Or.inl (Or.inl h)
  · rcases Nat.le_total a.2 b.2 with h2 | h2
    · exact Or.inl (Or.inr ⟨h, h2⟩)
    · exact Or.inr (Or.inr ⟨h.symm, h2⟩)
  · exact Or.inr (Or.inl h)

instance : IsTrans (Nat × Nat) spanLe := by
  constructor
  rintro a b c (h | ⟨h, h2⟩) (h' | ⟨h', h2'⟩)
  · exact Or.inl (h.trans h')
  · exact Or.inl (h' ▸ h)
  · exact Or.inl (h ▸ h')
  · exact Or.inr ⟨h.trans h', h2.trans h2'⟩

/-- `sorted(spans)` on the (deduplicated) span set. -/
def sortSpans (l : List (Nat × Nat)) : List (Nat × Nat) :=
  List.insertionSort spanLe l

/-- The second loop of `Tokenizer._replace_regex` (and of
`_replace_abbreviations`): for each span, in the order given (descending),
`text = text[:b] + " " + replacements[text[b:e]] + " " + text[e:]`.
A missing key (Python `KeyError`) is `none`. -/
def apply_replacements (d : List (Str × Str)) : Str → List (Nat × Nat) → Option Str
  | text, [] => some text
  | text, (b, e) :: rest =>
    match dlookup d (pySlice text b e) with
    | none => none
    | some r =>
      apply_replacements d (text.take b ++ ' ' :: (r ++ ' ' :: text.drop e)) rest

/-- `Tokenizer._replace_regex`. -/
def replace_regex (rx : Regex) (token_class : String) (st : TState)
    (text : Str) : Option (TState × Str) :=
  match process_matches token_class text (rx text) st [] with
  | none => none
  | some (st2, d) =>
    match apply_replacements d text
        ((sortSpans (((rx text).map (fun m => (m.mbegin, m.mend))).dedup)).reverse) with
    | none => none
    | some text2 => some (st2, text2)

/-- Full match of `(?:[[:alpha:]]\.){2,}` (two or more single-letter-dot
groups), the shape named by the claim: the length bound makes it at
least two letter-dot pairs. -/
def singleLetterDotRuns : Str → Bool
  | [] => true
  | [_] => false
  | a :: b :: rest => isAlphaCh a && b = '.' && singleLetterDotRuns rest

def isSingleLetterMultipart (s : Str) : Bool :=
  singleLetterDotRuns s && decide (4 ≤ s.length)

/-- Full match of `self.multipart_abbreviation = (?:[[:alpha:]]+\.){2,}`:
the string is a concatenation of at least two blocks, each one or more
letters followed by a dot.  Equivalently, splitting on `.` yields at least
three segments, the last empty and all others nonempty and alphabetic. -/
def isMultipartAbbrev (s : Str) : Bool :=
  let segs := s.splitOn '.'
  decide (3 ≤ segs.length) && (segs.getLast? == some []) &&
    segs.dropLast.all (fun a => !a.isEmpty && a.all isAlphaCh)

/-- The multipart splitting of `_replace_abbreviations`:
`[p.strip() + "." for p in instance.strip(".").split(".")]`. -/
def abbrevParts (inst : Str) : List Str :=
  ((stripDots inst).splitOn '.').map (fun p => stripSpaces p ++ ['.'])

/-- The final loop of `Tokenizer._replace_abbreviations` (lines 268-279):
like `process_matches` with class "abbreviation", except that an instance
fully matching `multipart_abbreviation` is split into `abbrevParts`. -/
def abbrev_process (text : Str) :
    List RMatch → TState → List (Str × Str) → Option (TState × List (Str × Str))
  | [], st, d => some (st, d)
  | m :: ms, st, d =>
    if isMultipartAbbrev (pySlice text m.mbegin m.mend) then
      match multipart_replace text (abbrevParts (pySlice text m.mbegin m.mend))
          "abbreviation" st with
      | none => none
      | some (st2, mp) =>
        abbrev_process text ms st2 ((pySlice text m.mbegin m.mend, mp) :: d)
    else
      match get_unique_string st.mapping text st.rand with
      | none => none
      | some (r, rand2) =>
        abbrev_process text ms
          ⟨(r, ⟨pySlice text m.mbegin m.mend, "abbreviation"⟩) :: st.mapping, rand2⟩
          ((pySlice text m.mbegin m.mend, r) :: d)

/-- The final abbreviation pass of `_replace_abbreviations` (lines 268-281):
match processing followed by span application in descending order. -/
def abbrev_final_pass (rx : Regex) (st : TState) (text : Str) :
    Option (TState × Str) :=
  match abbrev_process text (rx text) st [] with
  | none => none
  | some (st2, d) =>
    match apply_replacements d text
        ((sortSpans (((rx text).map (fun m => (m.mbegin, m.mend))).dedup)).reverse) with
    | none => none
    | some text2 => some (st2, text2)

/-- Constructor-time configuration of the `Tokenizer`. -/
structure Config where
  split_camel_case : Bool
  token_classes : Bool

/-- The compiled patterns owned by a `Tokenizer` instance, one field per
pattern of `__init__`, in source order.  Patterns used only through
`pattern.sub(replacement, text)` appear as text transformers. -/
structure Rules where
  tag : Regex
  email : Regex
  space_emoticon_sub : Str → Str
  simple_url_with_brackets : Regex
  simple_url : Regex
  doi : Regex
  doi_with_space : Regex
  url_without_protocol : Regex
  heart_emoticon : Regex
  emoticon : Regex
  mention : Regex
  hashtag : Regex
  action_word : Regex
  emoji : Regex
  token_with_plus_ampersand : Regex
  camel_case_token : Regex
  in_and_innen : Regex
  camel_case_sub : Str → Str
  single_letter_ellipsis : Regex
  and_cetera : Regex
  str_abbreviations : Regex
  nr_abbreviations : Regex
  single_letter_abbreviation : Regex
  single_token_abbreviation : Regex
  ps : Regex
  abbreviation : Regex
  three_part_date_year_first : Regex
  three_part_date_dmy : Regex
  three_part_date_mdy : Regex
  two_part_date : Regex
  time : Regex
  ordinal : Regex
  fraction : Regex
  amount : Regex
  semester : Regex
  measurement : Regex
  number_compound : Regex
  number : Regex
  quest_exclam : Regex
  space_right_arrow_sub : Str → Str
  space_left_arrow_sub : Str → Str
  arrow : Regex
  paired_paren_sub : Str → Str
  paired_bracket_sub : Str → Str
  paren_sub : Str → Str
  all_paren : Regex
  slash : Regex
  paired_double_latex_quote_sub : Str → Str
  paired_single_latex_quote_sub : Str → Str
  paired_single_quot_mark_sub : Str → Str
  all_quote : Regex
  other_punctuation : Regex
  ellipsis : Regex
  dot_without_space : Regex
  dot : Regex

/-- `Tokenizer._replace_abbreviations`: six targeted passes, whitespace
normalization, the `ps.` pass, then the generalized final pass. -/
def replace_abbreviations (R : Rules) (st : TState) (text : Str) :
    Option (TState × Str) := do
  let (st, text) ← replace_regex R.single_letter_ellipsis "abbreviation" st text
  let (st, text) ← replace_regex R.and_cetera "abbreviation" st text
  let (st, text) ← replace_regex R.str_abbreviations "abbreviation" st text
  let (st, text) ← replace_regex R.nr_abbreviations "abbreviation" st text
  let (st, text) ← replace_regex R.single_letter_abbreviation "abbreviation" st text
  let (st, text) ← replace_regex R.single_token_abbreviation "abbreviation" st text
  let text := collapse_spaces text
  let (st, text) ← replace_regex R.ps "abbreviation" st text
  abbrev_final_pass R.abbreviation st text

/-- One pipeline stage: a transformation of (mapping + oracle, working
text) that can fail (oracle exhaustion / `KeyError`). -/
abbrev Step := TState × Str → Option (TState × Str)

/-- A `paragraph = self._replace_regex(paragraph, rx, cls)` line. -/
def rstage (rx : Regex) (token_class : String) : Step :=
  fun p => replace_regex rx token_class p.1 p.2

/-- A pure `paragraph = pattern.sub(repl, paragraph)` line. -/
def sstage (f : Str → Str) : Step := fun p => some (p.1, f p.2)

/-- The stages of `Tokenizer.tokenize` up to (but excluding) the final
whitespace split: every `_replace_regex` stage and every `.sub` stage, in
source order (lines 291-390). -/
def pipeline_steps (R : Rules) (cfg : Config) : List Step :=
  [rstage R.tag "XML_tag",
   rstage R.email "email_address",
   sstage R.space_emoticon_sub,
   rstage R.simple_url_with_brackets "URL",
   rstage R.simple_url "URL",
   rstage R.doi "DOI",
   rstage R.doi_with_space "DOI",
   rstage R.url_without_protocol "URL",
   sstage collapse_spaces,
   rstage R.heart_emoticon "emoticon",
   rstage R.emoticon "emoticon",
   rstage R.mention "mention",
   rstage R.hashtag "hashtag",
   rstage R.action_word "action_word",
   rstage R.emoji "emoticon",
   rstage R.token_with_plus_ampersand "regular",
   fun p =>
     if cfg.split_camel_case then do
       let p ← rstage R.camel_case_token "regular" p
       let p ← rstage R.in_and_innen "regular" p
       some (p.1, R.camel_case_sub p.2)
     else some p,
   fun p => replace_abbreviations R p.1 p.2,
   rstage R.three_part_date_year_first "date",
   rstage R.three_part_date_dmy "date",
   rstage R.three_part_date_mdy "date",
   rstage R.two_part_date "date",
   rstage R.time "time",
   rstage R.ordinal "ordinal",
   rstage R.fraction "number",
   rstage R.amount "amount",
   rstage R.semester "semester",
   rstage R.measurement "measurement",
   rstage R.number_compound "number_compound",
   rstage R.number "number",
   rstage R.quest_exclam "symbol",
   sstage R.space_right_arrow_sub,
   sstage R.space_left_arrow_sub,
   rstage R.arrow "symbol",
   sstage R.paired_paren_sub,
   sstage R.paired_bracket_sub,
   sstage R.paren_sub,
   rstage R.all_paren "symbol",
   rstage R.slash "symbol",
   sstage R.paired_double_latex_quote_sub,
   sstage R.paired_single_latex_quote_sub,
   sstage R.paired_single_quot_mark_sub,
   rstage R.all_quote "symbol",
   rstage R.other_punctuation "symbol",
   rstage R.ellipsis "symbol",
   rstage R.dot_without_space "symbol",
   rstage R.dot "symbol"]

/-- The pipeline of `Tokenizer.tokenize` before the final whitespace
split: the stages above, run in order on the reset state
(`self.mapping = {}`) and the input paragraph. -/
def run_pipeline (R : Rules) (cfg : Config) (rand : List Str)
    (paragraph : Str) : Option (TState × Str) :=
  (pipeline_steps R cfg).foldlM (fun p f => f p) (⟨[], rand⟩, paragraph)

/-- `Tokenizer._reintroduce_instances`: look each split element up in the
mapping, defaulting to a regular token. -/
def reintroduce_instances (mapping : List (Str × Token)) (tokens : List Str) :
    List Token :=
  tokens.map (fun t => (dlookup mapping t).getD ⟨t, "regular"⟩)

/-- The final stage of `tokenize` (lines 392-396):
`tokens = paragraph.strip().split()` then `_reintroduce_instances`. -/
def finalize (st : TState) (text : Str) : List Token :=
  reintroduce_instances st.mapping (splitWords (stripSpaces text))

/-- Result of `tokenize`: class-annotated tokens, or bare texts when
`token_classes` is false. -/
inductive Output where
  | classed (ts : List Token) : Output
  | plain (ts : List Str) : Output
deriving DecidableEq, Repr

/-- `Tokenizer.tokenize`. -/
def tokenize_out (R : Rules) (cfg : Config) (rand : List Str)
    (paragraph : Str) : Option Output :=
  (run_pipeline R cfg rand paragraph).map (fun p =>
    let ts := finalize p.1 p.2
    if cfg.token_classes then Output.classed ts
    else Output.plain (ts.map Token.token))

/-- A stripped line starting a comment: `line.startswith("#")`. -/
def startsWithHash : Str → Bool
  | '#' :: _ => true
  | _ => false

/-- Ordering used by `sorted(abbreviations, key=len, reverse=True)`. -/
def lenGe (a b : Str) : Prop := b.length ≤ a.length

instance : DecidableRel lenGe := fun a b => by
  unfold lenGe; infer_instance

instance : IsTotal Str lenGe := ⟨fun a b => (Nat.le_total b.length a.length).imp id id⟩

instance : IsTrans Str lenGe := ⟨fun _ _ _ h h' => le_trans h' h⟩

/-- `Tokenizer._read_abbreviation_file`, with the file abstracted to its
list of lines: strip each line, drop comment lines and empty lines,
deduplicate (the Python `set`; iteration order of a set is unspecified, we
keep first occurrences), and sort by length, longest first. -/
def read_abbreviation_file (lines : List Str) : List Str :=
  List.insertionSort lenGe
    (((lines.map stripSpaces).filter
        (fun l => !startsWithHash l && !l.isEmpty)).dedup)

/-- String-literal helper. -/
def chars (s : String) : Str := s.toList

example : splitWords (chars "  ab  cd ") = [chars "ab", chars "cd"] := by decide
example : collapse_spaces (chars " a   b ") = chars " a b " := by decide
example : isMultipartAbbrev (chars "z.B.") = true := by decide
example : isMultipartAbbrev (chars "usw.") = false := by decide
example : isSingleLetterMultipart (chars "z.B.") = true := by decide
example : isSingleLetterMultipart (chars "ev.luth.") = false := by decide
example : abbrevParts (chars "z.B.") = [chars "z.", chars "B."] := by decide
example : stripDots (chars "..a.b..") = chars "a.b" := by decide

/-- A matcher that finds no matches; used to instantiate patterns that
provably do not match on the concrete inputs of the runs below. -/
def noMatch : Regex := fun _ => []

/-- Generic one-pass scanner: `try1 prev s` returns the length of a match
of the pattern starting at the head of `s` (with `prev` the character
before it, for boundary lookbehinds), or `none`.  Scanning resumes after
each match, like `finditer`; the fuel is an upper bound on the number of
steps and never runs out for fuel ≥ length + 1. -/
def scanAux (try1 : Option Char → Str → Option Nat) :
    Nat → Option Char → Nat → Str → List (Nat × Nat)
  | 0, _, _, _ => []
  | _ + 1, _, _, [] => []
  | fuel + 1, prev, i, c :: rest =>
    match try1 prev (c :: rest) with
    | some len =>
      (i, i + len) :: scanAux try1 fuel (some ((c :: rest).getD (len - 1) c))
        (i + len) ((c :: rest).drop len)
    | none => scanAux try1 fuel (some c) (i + 1) rest

/-- Matches of a group-free pattern via `scanAux`. -/
def scanMatches (try1 : Option Char → Str → Option Nat) (s : Str) :
    List RMatch :=
  (scanAux try1 (s.length + 1) none 0 s).map (fun p => ⟨p.1, p.2, []⟩)

/-- `self.dot = (\.)`: every dot is a match (group 1 is unnamed, so the
groupdict is empty). -/
def dotMatcher : Regex :=
  scanMatches (fun _ s => if s.getD 0 ' ' = '.' then some 1 else none)

/-- `self.emoji = \bemoji[[:alpha:]]+\b`: at a word boundary, the literal
`emoji` followed by at least one more letter, up to the end of the
maximal letter run, which must end at a word boundary (no digit or
underscore directly after). -/
def emojiTry (prev : Option Char) (s : Str) : Option Nat :=
  let run := s.takeWhile isAlphaCh
  if (match prev with | none => true | some c => !isWordChar c) &&
      (chars "emoji").isPrefixOf run && decide (6 ≤ run.length) &&
      !isWordChar (s.getD run.length ' ') then
    some run.length
  else none

def emojiMatcher : Regex := scanMatches emojiTry

/-- `self.mention = [@]\w+(?!\w)`: an `@` followed by the maximal nonempty
run of word characters (the lookahead holds because the run is maximal). -/
def mentionTry (_ : Option Char) (s : Str) : Option Nat :=
  if s.getD 0 ' ' = '@' then
    let run := (s.drop 1).takeWhile isWordChar
    if run.isEmpty then none else some (1 + run.length)
  else none

def mentionMatcher : Regex := scanMatches mentionTry

/-- `self.arrow = (-+>|<-+|[←-⇿])` (the group is unnamed): a
dash run followed by `>`, or `<` followed by a dash run, or a single
Unicode arrow character. -/
def arrowTry (_ : Option Char) (s : Str) : Option Nat :=
  match s.getD 0 ' ' with
  | '<' =>
    let d := (s.drop 1).takeWhile (fun c => c = '-')
    if d.isEmpty then none else some (1 + d.length)
  | '-' =>
    let d := s.takeWhile (fun c => c = '-')
    if s.getD d.length ' ' = '>' then some (d.length + 1) else none
  | c => if '←' ≤ c && c ≤ '⇿' then some 1 else none

def arrowMatcher : Regex := scanMatches arrowTry

/-- `self.space_right_arrow.sub(r'\1\2', text)` for
`space_right_arrow = (-+)\s+(>)`: delete the whitespace between a dash
run and a following `>`.  (Backtracking to a shorter dash run can never
succeed, since the character after a shorter run is again a dash.) -/
def rightArrowFixAux : Nat → Str → Str
  | 0, s => s
  | _ + 1, [] => []
  | fuel + 1, c :: rest =>
    if c = '-' then
      let d := (c :: rest).takeWhile (fun x => x = '-')
      let afterD := (c :: rest).drop d.length
      let w := afterD.takeWhile isSpace
      if !w.isEmpty && afterD.getD w.length ' ' = '>' then
        d ++ '>' :: rightArrowFixAux fuel (afterD.drop (w.length + 1))
      else c :: rightArrowFixAux fuel rest
    else c :: rightArrowFixAux fuel rest

def rightArrowFix (s : Str) : Str := rightArrowFixAux (s.length + 1) s

/-- `self.space_left_arrow.sub(r'\1\2', text)` for
`space_left_arrow = (<)\s+(-+)`. -/
def leftArrowFixAux : Nat → Str → Str
  | 0, s => s
  | _ + 1, [] => []
  | fuel + 1, c :: rest =>
    if c = '<' then
      let w := rest.takeWhile isSpace
      let d := (rest.drop w.length).takeWhile (fun x => x = '-')
      if !w.isEmpty && !d.isEmpty then
        '<' :: d ++ leftArrowFixAux fuel (rest.drop (w.length + d.length))
      else c :: leftArrowFixAux fuel rest
    else c :: leftArrowFixAux fuel rest

def leftArrowFix (s : Str) : Str := leftArrowFixAux (s.length + 1) s

/-- A rule table in which no pattern matches and no substitution changes
the text. -/
def trivialRules : Rules where
  tag := noMatch
  email := noMatch
  space_emoticon_sub := id
  simple_url_with_brackets := noMatch
  simple_url := noMatch
  doi := noMatch
  doi_with_space := noMatch
  url_without_protocol := noMatch
  heart_emoticon := noMatch
  emoticon := noMatch
  mention := noMatch
  hashtag := noMatch
  action_word := noMatch
  emoji := noMatch
  token_with_plus_ampersand := noMatch
  camel_case_token := noMatch
  in_and_innen := noMatch
  camel_case_sub := id
  single_letter_ellipsis := noMatch
  and_cetera := noMatch
  str_abbreviations := noMatch
  nr_abbreviations := noMatch
  single_letter_abbreviation := noMatch
  single_token_abbreviation := noMatch
  ps := noMatch
  abbreviation := noMatch
  three_part_date_year_first := noMatch
  three_part_date_dmy := noMatch
  three_part_date_mdy := noMatch
  two_part_date := noMatch
  time := noMatch
  ordinal := noMatch
  fraction := noMatch
  amount := noMatch
  semester := noMatch
  measurement := noMatch
  number_compound := noMatch
  number := noMatch
  quest_exclam := noMatch
  space_right_arrow_sub := id
  space_left_arrow_sub := id
  arrow := noMatch
  paired_paren_sub := id
  paired_bracket_sub := id
  paren_sub := id
  all_paren := noMatch
  slash := noMatch
  paired_double_latex_quote_sub := id
  paired_single_latex_quote_sub := id
  paired_single_quot_mark_sub := id
  all_quote := noMatch
  other_punctuation := noMatch
  ellipsis := noMatch
  dot_without_space := noMatch
  dot := noMatch

/-- Concrete instantiation of the rule table for the runs below: the
`emoji`, `mention`, `dot`, arrow patterns and the two arrow-space
substitutions are implemented exactly; every other pattern is
instantiated with `noMatch`, which agrees with the corresponding source
regex on every working text arising in those runs (the inputs contain no
`<`, no `@`-preceded-by-alnum, no digits, no `:;`, no parens, quotes,
`#`, `*`, `+`, `&`, `/` or letter-adjacent dots, so none of the other
~40 patterns can match; this is checked against each pattern of
`__init__` by inspection of those short texts). -/
def cRules : Rules :=
  { trivialRules with
    emoji := emojiMatcher
    mention := mentionMatcher
    arrow := arrowMatcher
    space_right_arrow_sub := rightArrowFix
    space_left_arrow_sub := leftArrowFix
    dot := dotMatcher }


theorem get_unique_string_fresh_core (m : List (Str × Token)) (text : Str) :
    ∀ (rand : List Str) (r : Str) (rest : List Str),
    get_unique_string m text rand = some (r, rest) →
    dlookup m r = none ∧ occurs r text = false := by
  intro rand
  induction rand with
  | nil => intro r rest h; simp [get_unique_string] at h
  | cons c cs ih =>
    intro r rest h
    by_cases hc : ((dlookup m c).isSome || occurs c text) = true
    · rw [get_unique_string, if_pos hc] at h
      exact ih r rest h
    · rw [get_unique_string, if_neg hc] at h
      cases h
      simp only [Bool.or_eq_true, not_or, Bool.not_eq_true] at hc
      exact ⟨Option.not_isSome_iff_eq_none.mp (by simp [hc.1]), hc.2⟩

/-- C1 (amended): any string returned by `_get_unique_string` is, at the
moment of its creation, neither a key of the mapping table nor a
substring of the current working text.  (The output half of the original
claim is false: a placeholder may coincide with already-masked original
text and then appear in the final token sequence, see
`placeholder_leak_example`.) -/
theorem get_unique_string_fresh (m : List (Str × Token)) (text : Str)
    (rand : List Str) (r : Str) (rest : List Str)
    (h : get_unique_string m text rand = some (r, rest)) :
    dlookup m r = none ∧ occurs r text = false :=
  get_unique_string_fresh_core m text rand r rest h

theorem get_unique_string_fresh_witness :
    dlookup ([] : List (Str × Token)) (chars "abcdefg") = none ∧
      occurs (chars "abcdefg") (chars "xy") = false :=
  get_unique_string_fresh [] (chars "xy") [chars "abcdefg"] (chars "abcdefg") []
    (by decide)

/-- C1 counterexample: refutes the output half of placeholder isolation.  On input
`"emojixy ."`, the `emoji` rule masks `emojixy` behind the placeholder
`aaaaaaa`; at the final dot rule the draw `emojixy` is accepted as a
placeholder (it is no longer a substring of the working text
`" aaaaaaa ."` and not yet a mapping key) and registered for the token
`"."`.  The returned token sequence then contains the string `emojixy`,
which is a registered placeholder of this very call — a placeholder
string does appear in the final token sequence.  (Both draws are strings
the real generator can produce, see `validDraw`.) -/
theorem placeholder_leak_example :
    run_pipeline cRules ⟨false, false⟩ [chars "aaaaaaa", chars "emojixy"]
        (chars "emojixy .") =
      some (⟨[(chars "emojixy", ⟨chars ".", "symbol"⟩),
              (chars "aaaaaaa", ⟨chars "emojixy", "emoticon"⟩)], []⟩,
            chars " aaaaaaa  emojixy ") ∧
    tokenize_out cRules ⟨false, false⟩ [chars "aaaaaaa", chars "emojixy"]
        (chars "emojixy .") =
      some (Output.plain [chars "emojixy", chars "."]) ∧
    validDraw (chars "aaaaaaa") = true ∧ validDraw (chars "emojixy") = true := by
  refine ⟨by decide, by decide, by decide, by decide⟩

/-- C10 counterexample: refutes output determinism.  The same input `"@foo"` tokenized twice
with different (equally producible) random draws gives different
results.  With draw `abcdefg` the mention `@foo` is masked and restored,
yielding `["@foo"]`; with draw `emojiab` the placeholder itself is then
matched by the later `emoji` rule, so the run yields `["emojiab"]`. -/
theorem tokenize_randomness_dependent :
    tokenize_out cRules ⟨false, false⟩ [chars "abcdefg"] (chars "@foo") =
      some (Output.plain [chars "@foo"]) ∧
    tokenize_out cRules ⟨false, false⟩ [chars "emojiab", chars "aaaaaaa"]
        (chars "@foo") =
      some (Output.plain [chars "emojiab"]) ∧
    Output.plain [chars "@foo"] ≠ Output.plain [chars "emojiab"] ∧
    validDraw (chars "abcdefg") = true ∧ validDraw (chars "emojiab") = true ∧
    validDraw (chars "aaaaaaa") = true := by
  refine ⟨by decide, by decide, by decide, by decide, by decide, by decide⟩

/-- C10 (amended): what is true in place of full determinism: draws rejected by
`_get_unique_string` never influence anything — a rejected prefix of the
random stream can be removed without changing the returned placeholder
or the rest of the stream (whereas accepted draws can influence the
output, see `tokenize_randomness_dependent`). -/
theorem get_unique_string_skips_rejected (m : List (Str × Token)) (text : Str) :
    ∀ (bads rand : List Str),
    (∀ b ∈ bads, ((dlookup m b).isSome || occurs b text) = true) →
    get_unique_string m text (bads ++ rand) = get_unique_string m text rand := by
  intro bads
  induction bads with
  | nil => intro rand _; rfl
  | cons b bs ih =>
    intro rand h
    rw [List.cons_append, get_unique_string, if_pos (h b (List.mem_cons_self b bs))]
    exact ih rand (fun x hx => h x (List.mem_cons_of_mem b hx))

theorem get_unique_string_skips_rejected_witness :
    get_unique_string [] (chars "ab") [chars "ab", chars "zzzzzzz"] =
      get_unique_string [] (chars "ab") [chars "zzzzzzz"] :=
  get_unique_string_skips_rejected [] (chars "ab") [chars "ab"]
    [chars "zzzzzzz"] (by decide)

/-- All strings of a given length over `alphabet`. -/
def allWords : Nat → List Str
  | 0 => [[]]
  | n + 1 => (alphabet.map (fun c => (allWords n).map (fun w => c :: w))).flatten

/-- A text containing every string the placeholder generator can draw:
the concatenation of all 26^7 length-7 lowercase words.  (As an input
paragraph it is astronomically long but perfectly legal.) -/
def badText : Str := (allWords 7).flatten

theorem isPrefixOf_self_append (p v : Str) : p.isPrefixOf (p ++ v) = true := by
  induction p with
  | nil => cases v with
    | nil => rfl
    | cons c cs => rfl
  | cons c cs ih => simp [List.isPrefixOf, ih]

theorem occurs_self_append (p v : Str) : occurs p (p ++ v) = true := by
  cases h : p ++ v with
  | nil =>
    have hp : p = [] := (List.append_eq_nil.mp h).1
    subst hp
    simp only [List.nil_append] at h
    subst h
    rfl
  | cons c rest =>
    rw [occurs, ← h, isPrefixOf_self_append, Bool.true_or]

theorem occurs_append_left (p t x : Str) (h : occurs p t = true) :
    occurs p (x ++ t) = true := by
  induction x with
  | nil => exact h
  | cons c cs ih => rw [List.cons_append, occurs, ih, Bool.or_true]

theorem mem_imp_occurs_join (s : Str) (L : List Str) (h : s ∈ L) :
    occurs s L.flatten = true := by
  induction L with
  | nil => cases h
  | cons x xs ih =>
    rcases List.mem_cons.mp h with rfl | h'
    · rw [List.flatten_cons]
      exact occurs_self_append _ _
    · rw [List.flatten_cons]
      exact occurs_append_left _ _ _ (ih h')

theorem mem_allWords : ∀ (n : Nat) (s : Str), s.length = n →
    (∀ c ∈ s, c ∈ alphabet) → s ∈ allWords n := by
  intro n
  induction n with
  | zero =>
    intro s hl _
    rw [List.length_eq_zero] at hl
    subst hl
    simp [allWords]
  | succ k ih =>
    intro s hl hc
    cases s with
    | nil => simp at hl
    | cons c cs =>
      simp only [List.length_cons, Nat.succ.injEq] at hl
      rw [allWords, List.mem_flatten]
      refine ⟨(allWords k).map (fun w => c :: w), ?_, ?_⟩
      · exact List.mem_map_of_mem _ (hc c (List.mem_cons_self _ _))
      · exact List.mem_map_of_mem _
          (ih cs hl (fun x hx => hc x (List.mem_cons_of_mem _ hx)))

/-- C8 counterexample: refutes unconditional termination of placeholder generation.  For the
(reachable) working text `badText` there is no valid draw the rejection
loop could ever accept — every length-7 lowercase string is a substring
of the text — so `_get_unique_string` loops forever on it no matter what
the random generator produces.  (Input `badText ++ " ."` reaches this
working text: no letters-only pattern of the pipeline matches before the
final dot rule requests a placeholder.) -/
theorem generator_divergence_possible :
    ¬ (∀ text : Str, ∃ s : Str, validDraw s = true ∧ occurs s text = false) := by
  intro h
  obtain ⟨s, hv, ho⟩ := h badText
  simp only [validDraw, Bool.and_eq_true, beq_iff_eq, List.all_eq_true] at hv
  have hmem : s ∈ allWords 7 :=
    mem_allWords 7 s hv.1 (fun c hc => of_decide_eq_true (hv.2 c hc))
  have hocc : occurs s badText = true := mem_imp_occurs_join s (allWords 7) hmem
  rw [hocc] at ho
  cases ho

/-- C8 (amended): the rejection loop of `_get_unique_string`
returns precisely when the stream of random draws contains some candidate
that is neither a mapping key nor a substring of the working text; and
the full pipeline is total on inputs that request no placeholder at all
(for instance the empty paragraph, which yields the empty sequence). -/
theorem get_unique_string_terminates_iff :
    (∀ (m : List (Str × Token)) (text : Str) (rand : List Str),
       (get_unique_string m text rand).isSome = true ↔
         ∃ s ∈ rand, ((dlookup m s).isSome || occurs s text) = false) ∧
    tokenize_out cRules ⟨false, false⟩ [] (chars "") =
      some (Output.plain []) := by
  constructor
  · intro m text rand
    induction rand with
    | nil => simp [get_unique_string]
    | cons c cs ih =>
      by_cases hc : ((dlookup m c).isSome || occurs c text) = true
      · rw [get_unique_string, if_pos hc, ih]
        constructor
        · rintro ⟨s, hs, hgood⟩
          exact ⟨s, List.mem_cons_of_mem _ hs, hgood⟩
        · rintro ⟨s, hs, hgood⟩
          rcases List.mem_cons.mp hs with rfl | hs'
          · rw [hc] at hgood
            cases hgood
          · exact ⟨s, hs', hgood⟩
      · rw [get_unique_string, if_neg hc]
        simp only [Option.isSome_some, true_iff]
        exact ⟨c, List.mem_cons_self _ _, Bool.eq_false_iff.mpr hc⟩
  · decide

/-- C9: lexicon parsing.  Stripped lines that are comments (`#`) or empty are
ignored, the remaining entries are deduplicated, and the result is sorted
by length, longest first. -/
theorem read_abbreviation_file_spec (lines : List Str) :
    List.Sorted lenGe (read_abbreviation_file lines) ∧
    (read_abbreviation_file lines).Nodup ∧
    (∀ s : Str, s ∈ read_abbreviation_file lines ↔
       (∃ l ∈ lines, stripSpaces l = s) ∧ startsWithHash s = false ∧ s ≠ []) := by
  refine ⟨List.sorted_insertionSort _ _, ?_, ?_⟩
  · exact ((List.perm_insertionSort _ _).nodup_iff).mpr (List.nodup_dedup _)
  · intro s
    simp only [read_abbreviation_file, List.mem_insertionSort, List.mem_dedup,
      List.mem_filter, List.mem_map, Bool.and_eq_true, Bool.not_eq_true']
    constructor
    · rintro ⟨hmap, h1, h2⟩
      refine ⟨hmap, h1, ?_⟩
      intro hnil
      subst hnil
      simp at h2
    · rintro ⟨hmap, h1, h2⟩
      refine ⟨hmap, h1, ?_⟩
      cases s with
      | nil => exact absurd rfl h2
      | cons c cs => rfl

/-- C6: the final stage of `tokenize`.  The working text is split on
whitespace runs; every element is looked up in the mapping, defaulting to
class "regular"; with `token_classes = False` only the texts are
returned; both outputs preserve the left-to-right order (they are
element-wise images of the split list). -/
theorem tokenize_final_stage (R : Rules) (cfg : Config) (rand : List Str)
    (paragraph : Str) (st : TState) (text : Str)
    (h : run_pipeline R cfg rand paragraph = some (st, text)) :
    finalize st text =
      (splitWords (stripSpaces text)).map
        (fun w => (dlookup st.mapping w).getD ⟨w, "regular"⟩) ∧
    tokenize_out R cfg rand paragraph =
      some (if cfg.token_classes then Output.classed (finalize st text)
            else Output.plain ((finalize st text).map Token.token)) := by
  constructor
  · rfl
  · rw [tokenize_out, h]
    rfl

theorem tokenize_final_stage_witness :
    finalize ⟨[(chars "abcdefg", ⟨chars "@foo", "mention"⟩)], []⟩
        (chars " abcdefg ") =
      (splitWords (stripSpaces (chars " abcdefg "))).map
        (fun w =>
          (dlookup [(chars "abcdefg", ⟨chars "@foo", "mention"⟩)] w).getD
            ⟨w, "regular"⟩) ∧
    tokenize_out cRules ⟨false, false⟩ [chars "abcdefg"] (chars "@foo") =
      some (if (⟨false, false⟩ : Config).token_classes then
              Output.classed
                (finalize ⟨[(chars "abcdefg", ⟨chars "@foo", "mention"⟩)], []⟩
                  (chars " abcdefg "))
            else
              Output.plain
                ((finalize ⟨[(chars "abcdefg", ⟨chars "@foo", "mention"⟩)], []⟩
                    (chars " abcdefg ")).map Token.token)) :=
  tokenize_final_stage cRules ⟨false, false⟩ [chars "abcdefg"] (chars "@foo")
    ⟨[(chars "abcdefg", ⟨chars "@foo", "mention"⟩)], []⟩ (chars " abcdefg ")
    (by decide)

theorem splitWords_space_cons (s : Str) : splitWords (' ' :: s) = splitWords s := by
  rfl

theorem splitWordsAux_append_space : ∀ (s : Str) (cur : Str),
    splitWordsAux cur (s ++ [' ']) = splitWordsAux cur s := by
  intro s
  induction s with
  | nil =>
    intro cur
    cases cur with
    | nil => rfl
    | cons a as => rfl
  | cons c cs ih =>
    intro cur
    rw [List.cons_append]
    simp only [splitWordsAux, ih]

theorem splitWordsAux_through_word : ∀ (w : Str), (∀ c ∈ w, isSpace c = false) →
    ∀ (cur s : Str), splitWordsAux cur (w ++ s) = splitWordsAux (w.reverse ++ cur) s := by
  intro w
  induction w with
  | nil => intro _ cur s; rfl
  | cons c cs ih =>
    intro hw cur s
    rw [List.cons_append, splitWordsAux,
      hw c (List.mem_cons_self _ _)]
    simp only [Bool.false_eq_true, if_false]
    rw [ih (fun x hx => hw x (List.mem_cons_of_mem _ hx)) (c :: cur) s,
      List.reverse_cons, List.append_assoc, List.singleton_append]

theorem splitWords_joinSpace : ∀ (rs : List Str),
    (∀ r ∈ rs, r ≠ [] ∧ ∀ c ∈ r, isSpace c = false) →
    splitWords (joinSpace rs) = rs := by
  intro rs
  induction rs with
  | nil => intro _; rfl
  | cons r rs ih =>
    intro h
    obtain ⟨hr, hrs⟩ := h r (List.mem_cons_self _ _)
    cases rs with
    | nil =>
      show splitWordsAux [] (joinSpace [r]) = [r]
      have hj : joinSpace [r] = r ++ [] := by simp [joinSpace]
      rw [hj, splitWordsAux_through_word r hrs [] [], List.append_nil,
        splitWordsAux]
      cases hre : r.reverse.isEmpty with
      | true =>
        rw [List.isEmpty_iff, List.reverse_eq_nil_iff] at hre
        exact absurd hre hr
      | false =>
        rw [List.reverse_reverse]
        simp
    | cons r2 rs2 =>
      have hj : joinSpace (r :: r2 :: rs2) = r ++ ' ' :: joinSpace (r2 :: rs2) := rfl
      show splitWordsAux [] (joinSpace (r :: r2 :: rs2)) = r :: r2 :: rs2
      rw [hj, splitWordsAux_through_word r hrs [] (' ' :: joinSpace (r2 :: rs2)),
        List.append_nil, splitWordsAux]
      cases hre : r.reverse.isEmpty with
      | true =>
        rw [List.isEmpty_iff, List.reverse_eq_nil_iff] at hre
        exact absurd hre hr
      | false =>
        rw [List.reverse_reverse]
        have hrec := ih (fun x hx => h x (List.mem_cons_of_mem _ hx))
        rw [show splitWords (joinSpace (r2 :: rs2)) =
              splitWordsAux [] (joinSpace (r2 :: rs2)) from rfl] at hrec
        rw [hrec]
        simp [show isSpace ' ' = true from by decide]

/-- A replacement wrapped in its two surrounding spaces contributes
exactly its words to a whitespace split. -/
theorem splitWords_wrapped (x : Str) :
    splitWords (' ' :: (x ++ [' '])) = splitWords x := by
  rw [splitWords_space_cons]
  exact splitWordsAux_append_space x []

theorem validDraw_word (r : Str) (h : validDraw r = true) :
    r ≠ [] ∧ ∀ c ∈ r, isSpace c = false := by
  simp only [validDraw, Bool.and_eq_true, beq_iff_eq, List.all_eq_true] at h
  constructor
  · intro hn
    rw [hn] at h
    simp at h
  · intro c hc
    have hmem : c ∈ alphabet := of_decide_eq_true (h.2 c hc)
    have hall : ∀ x ∈ alphabet, isSpace x = false := by decide
    exact hall c hmem

theorem get_unique_string_mem (m : List (Str × Token)) (text : Str) :
    ∀ (rand : List Str) (r : Str) (rest : List Str),
    get_unique_string m text rand = some (r, rest) →
    r ∈ rand ∧ rest.Sublist rand := by
  intro rand
  induction rand with
  | nil => intro r rest h; simp [get_unique_string] at h
  | cons c cs ih =>
    intro r rest h
    by_cases hc : ((dlookup m c).isSome || occurs c text) = true
    · rw [get_unique_string, if_pos hc] at h
      obtain ⟨h1, h2⟩ := ih r rest h
      exact ⟨List.mem_cons_of_mem _ h1, h2.cons c⟩
    · rw [get_unique_string, if_neg hc] at h
      cases h
      exact ⟨List.mem_cons_self _ _, List.Sublist.cons c (List.Sublist.refl cs)⟩

theorem multipart_draws_spec (text : Str) (token_class : String) :
    ∀ (parts : List Str) (st st2 : TState) (rs : List Str),
    multipart_draws text token_class parts st = some (st2, rs) →
    rs.length = parts.length ∧
    st2.mapping =
      ((rs.zip parts).map (fun rp => (rp.1, Token.mk rp.2 token_class))).reverse
        ++ st.mapping ∧
    (∀ r ∈ rs, r ∈ st.rand) := by
  intro parts
  induction parts with
  | nil =>
    intro st st2 rs h
    rw [multipart_draws] at h
    cases h
    simp
  | cons part ps ih =>
    intro st st2 rs h
    rw [multipart_draws] at h
    cases hg : get_unique_string st.mapping text st.rand with
    | none => rw [hg] at h; cases h
    | some pr =>
      obtain ⟨r, rand2⟩ := pr
      rw [hg] at h
      dsimp only at h
      cases hrec : multipart_draws text token_class ps
          ⟨(r, ⟨part, token_class⟩) :: st.mapping, rand2⟩ with
      | none =>
        rw [hrec] at h
        cases h
      | some pr2 =>
        obtain ⟨st3, rs3⟩ := pr2
        rw [hrec] at h
        dsimp only at h
        cases h
        obtain ⟨hlen, hmap, hmem⟩ := ih _ _ _ hrec
        obtain ⟨hrmem, hsub⟩ := get_unique_string_mem _ _ _ _ _ hg
        refine ⟨by simp [hlen], ?_, ?_⟩
        · rw [hmap]
          simp only [List.zip_cons_cons, List.map_cons, List.reverse_cons,
            List.append_assoc, List.singleton_append]
        · intro x hx
          rcases List.mem_cons.mp hx with rfl | hx'
          · exact hrmem
          · exact hsub.mem (hmem x hx')

theorem multipart_replace_eq (text : Str) (token_class : String)
    (parts : List Str) (st st2 : TState) (mp : Str)
    (h : multipart_replace text parts token_class st = some (st2, mp)) :
    ∃ rs, multipart_draws text token_class parts st = some (st2, rs) ∧
      mp = joinSpace rs := by
  rw [multipart_replace] at h
  cases hd : multipart_draws text token_class parts st with
  | none => rw [hd] at h; cases h
  | some pr =>
    obtain ⟨st3, rs⟩ := pr
    rw [hd] at h
    dsimp only [Option.map] at h
    rw [Option.some_inj, Prod.mk.injEq] at h
    obtain ⟨h1, h2⟩ := h
    exact ⟨rs, by rw [h1], h2.symm⟩

/-- C3: multiplicity of a single match in `_replace_regex`.  A match of a
pattern with named groups is split into one sub-token per named group,
the group values taken in sorted order of the group names; each sub-token
is registered under the rule's class; the replacement is the placeholders
joined by single spaces and, wrapped in its surrounding spaces,
contributes exactly one whitespace-delimited unit per named group.  A
match of a pattern without named groups contributes exactly one unit. -/
theorem replace_regex_multiplicity (token_class : String) (text : Str)
    (m : RMatch) (ms : List RMatch) (st : TState) (d : List (Str × Str))
    (res : TState × List (Str × Str))
    (hrand : ∀ s ∈ st.rand, validDraw s = true)
    (h : process_matches token_class text (m :: ms) st d = some res) :
    (0 < m.groups.length →
      ∃ (st2 : TState) (rs : List Str),
        multipart_replace text ((sortGroups m.groups).map Prod.snd) token_class
            st = some (st2, joinSpace rs) ∧
        List.Sorted groupLe (sortGroups m.groups) ∧
        rs.length = m.groups.length ∧
        splitWords (' ' :: (joinSpace rs ++ [' '])) = rs ∧
        st2.mapping =
          ((rs.zip ((sortGroups m.groups).map Prod.snd)).map
              (fun rp => (rp.1, Token.mk rp.2 token_class))).reverse
            ++ st.mapping ∧
        process_matches token_class text ms st2
          ((pySlice text m.mbegin m.mend, joinSpace rs) :: d) = some res) ∧
    (m.groups.length = 0 →
      ∃ (r : Str) (rand2 : List Str),
        get_unique_string st.mapping text st.rand = some (r, rand2) ∧
        splitWords (' ' :: (r ++ [' '])) = [r] ∧
        process_matches token_class text ms
          ⟨(r, ⟨pySlice text m.mbegin m.mend, token_class⟩) :: st.mapping, rand2⟩
          ((pySlice text m.mbegin m.mend, r) :: d) = some res) := by
  rw [process_matches] at h
  constructor
  · intro hg
    rw [if_pos hg] at h
    cases hmp : multipart_replace text ((sortGroups m.groups).map Prod.snd)
        token_class st with
    | none => rw [hmp] at h; cases h
    | some pr =>
      obtain ⟨st2, mp⟩ := pr
      rw [hmp] at h
      dsimp only at h
      obtain ⟨rs, hd, rfl⟩ := multipart_replace_eq _ _ _ _ _ _ hmp
      obtain ⟨hlen, hmap, hmem⟩ := multipart_draws_spec _ _ _ _ _ _ hd
      refine ⟨st2, rs, rfl, List.sorted_insertionSort _ _, ?_, ?_, hmap, h⟩
      · rw [hlen, List.length_map, sortGroups, List.length_insertionSort]
      · rw [splitWords_wrapped]
        exact splitWords_joinSpace rs
          (fun r hr => validDraw_word r (hrand r (hmem r hr)))
  · intro hg
    rw [if_neg (by simp [hg])] at h
    cases hgu : get_unique_string st.mapping text st.rand with
    | none => rw [hgu] at h; cases h
    | some pr =>
      obtain ⟨r, rand2⟩ := pr
      rw [hgu] at h
      dsimp only at h
      refine ⟨r, rand2, rfl, ?_, h⟩
      rw [splitWords_wrapped]
      have hv := validDraw_word r
        (hrand r (get_unique_string_mem _ _ _ _ _ hgu).1)
      have := splitWords_joinSpace [r]
        (fun x hx => by rcases List.mem_cons.mp hx with rfl | hx'
                        · exact hv
                        · cases hx')
      simpa [joinSpace] using this

/-- Validity of a `finditer` result, as guaranteed by the regex engine:
spans are in left-to-right order, non-overlapping, nonempty, and within
the text; `i` is a lower cursor and `n` the text length. -/
def AscValidFrom : Nat → Nat → List (Nat × Nat) → Prop
  | _, _, [] => True
  | i, n, (b, e) :: rest => i ≤ b ∧ b < e ∧ e ≤ n ∧ AscValidFrom e n rest

/-- Simultaneous replacement, following the spec's description: walking
the original text left to right, copy the segment before each span, then
the span's replacement wrapped in single spaces; every copied piece is a
slice of the original text, so no span's offsets are ever invalidated. -/
def ascSimulFrom (d : List (Str × Str)) (text : Str) :
    Nat → List (Nat × Nat) → Option Str
  | i, [] => some (text.drop i)
  | i, (b, e) :: rest =>
    match dlookup d (pySlice text b e) with
    | none => none
    | some r =>
      match ascSimulFrom d text e rest with
      | none => none
      | some tail => some (pySlice text i b ++ ' ' :: (r ++ ' ' :: tail))

theorem ascValidFrom_lower : ∀ (l : List (Nat × Nat)) (i n : Nat),
    AscValidFrom i n l → ∀ s ∈ l, i ≤ s.1 := by
  intro l
  induction l with
  | nil => intro i n _ s hs; cases hs
  | cons p rest ih =>
    obtain ⟨b, e⟩ := p
    intro i n hv s hs
    obtain ⟨h1, h2, h3, h4⟩ := hv
    rcases List.mem_cons.mp hs with rfl | hs'
    · exact h1
    · exact le_trans (le_trans h1 (Nat.le_of_lt h2)) (ih e n h4 s hs')

theorem ascValidFrom_pairwise : ∀ (l : List (Nat × Nat)) (i n : Nat),
    AscValidFrom i n l → l.Pairwise (fun s s' => s.1 < s'.1) := by
  intro l
  induction l with
  | nil => intro i n _; exact List.Pairwise.nil
  | cons p rest ih =>
    obtain ⟨b, e⟩ := p
    intro i n hv
    obtain ⟨h1, h2, h3, h4⟩ := hv
    refine List.Pairwise.cons ?_ (ih e n h4)
    intro s hs
    exact lt_of_lt_of_le h2 (ascValidFrom_lower rest e n h4 s hs)

/-- Splitting the last span off a descending application list. -/
theorem apply_replacements_snoc (d : List (Str × Str)) :
    ∀ (xs : List (Nat × Nat)) (x : Nat × Nat) (text : Str),
    apply_replacements d text (xs ++ [x]) =
      (apply_replacements d text xs).bind (fun t =>
        match dlookup d (pySlice t x.1 x.2) with
        | none => none
        | some r => some (t.take x.1 ++ ' ' :: (r ++ ' ' :: t.drop x.2))) := by
  intro xs
  induction xs with
  | nil =>
    intro x text
    obtain ⟨b, e⟩ := x
    show (match dlookup d (pySlice text b e) with
          | none => none
          | some r =>
            apply_replacements d
              (text.take b ++ ' ' :: (r ++ ' ' :: text.drop e)) []) =
         (match dlookup d (pySlice text b e) with
          | none => none
          | some r => some (text.take b ++ ' ' :: (r ++ ' ' :: text.drop e)))
    cases hl : dlookup d (pySlice text b e) with
    | none => rfl
    | some r => rfl
  | cons y ys ih =>
    intro x text
    obtain ⟨b, e⟩ := y
    show (match dlookup d (pySlice text b e) with
          | none => none
          | some r =>
            apply_replacements d
              (text.take b ++ ' ' :: (r ++ ' ' :: text.drop e)) (ys ++ [x])) =
         ((match dlookup d (pySlice text b e) with
          | none => none
          | some r =>
            apply_replacements d
              (text.take b ++ ' ' :: (r ++ ' ' :: text.drop e)) ys) :
            Option Str).bind (fun t =>
        match dlookup d (pySlice t x.1 x.2) with
        | none => none
        | some r => some (t.take x.1 ++ ' ' :: (r ++ ' ' :: t.drop x.2)))
    cases hl : dlookup d (pySlice text b e) with
    | none => rfl
    | some r => exact ih x _

/-- Applying the recorded spans in descending order of start offset
computes the simultaneous replacement: each lookup still sees the
original text's slice, and the result is assembled from slices of the
original text, so no not-yet-applied span's offsets are invalidated. -/
theorem apply_replacements_desc_eq_simul (d : List (Str × Str)) :
    ∀ (spans : List (Nat × Nat)) (text : Str) (i : Nat),
    AscValidFrom i text.length spans →
    apply_replacements d text spans.reverse =
      (ascSimulFrom d text i spans).map (fun t => text.take i ++ t) := by
  intro spans
  induction spans with
  | nil =>
    intro text i _
    rw [List.reverse_nil, apply_replacements, ascSimulFrom]
    simp [List.take_append_drop]
  | cons p rest ih =>
    intro text i hv
    obtain ⟨b, e⟩ := p
    obtain ⟨h1, h2, h3, h4⟩ := hv
    rw [List.reverse_cons, apply_replacements_snoc, ih text e h4, ascSimulFrom]
    cases htail : ascSimulFrom d text e rest with
    | none =>
      cases hlook : dlookup d (pySlice text b e) with
      | none => rfl
      | some r => rfl
    | some tail =>
      have hlen : (text.take e).length = e := by
        rw [List.length_take]
        exact Nat.min_eq_left h3
      have hslice : pySlice (text.take e ++ tail) b e = pySlice text b e := by
        rw [pySlice, List.take_append_of_le_length (le_of_eq hlen.symm),
          List.take_take, Nat.min_self]
        rfl
      dsimp only [Option.map, Option.bind]
      rw [hslice]
      cases hlook : dlookup d (pySlice text b e) with
      | none => rfl
      | some r =>
        have htake : (text.take e ++ tail).take b = text.take b := by
          rw [List.take_append_of_le_length
              (by rw [hlen]; exact Nat.le_of_lt h2),
            List.take_take, Nat.min_eq_left (Nat.le_of_lt h2)]
        have hdrop : (text.take e ++ tail).drop e = tail := by
          rw [List.drop_append_of_le_length (le_of_eq hlen.symm),
            List.drop_eq_nil_of_le (le_of_eq hlen), List.nil_append]
        rw [htake, hdrop, Option.some_inj]
        have hjoin : text.take i ++ pySlice text i b = text.take b := by
          rw [pySlice]
          conv_lhs =>
            rw [show text.take i = (text.take b).take i from by
              rw [List.take_take, Nat.min_eq_left h1]]
          exact List.take_append_drop i (text.take b)
        rw [← hjoin, List.append_assoc]

theorem ascValidFrom_nodup (spans : List (Nat × Nat)) (i n : Nat)
    (hv : AscValidFrom i n spans) : spans.Nodup := by
  refine (ascValidFrom_pairwise spans i n hv).imp ?_
  intro a b hab heq
  rw [heq] at hab
  exact lt_irrefl _ hab

theorem ascValidFrom_sorted (spans : List (Nat × Nat)) (i n : Nat)
    (hv : AscValidFrom i n spans) : List.Sorted spanLe spans :=
  (ascValidFrom_pairwise spans i n hv).imp (fun h => Or.inl h)

theorem replace_regex_ascSimul (rx : Regex) (token_class : String)
    (st : TState) (text : Str) (st2 : TState) (out : Str)
    (hv : AscValidFrom 0 text.length
      ((rx text).map (fun m => (m.mbegin, m.mend))))
    (h : replace_regex rx token_class st text = some (st2, out)) :
    ∃ d, process_matches token_class text (rx text) st [] = some (st2, d) ∧
      ascSimulFrom d text 0 ((rx text).map (fun m => (m.mbegin, m.mend))) =
        some out := by
  rw [replace_regex] at h
  cases hp : process_matches token_class text (rx text) st [] with
  | none => rw [hp] at h; cases h
  | some pr =>
    obtain ⟨st3, d⟩ := pr
    rw [hp] at h
    dsimp only at h
    rw [sortSpans,
      List.dedup_eq_self.mpr (ascValidFrom_nodup _ 0 text.length hv),
      (ascValidFrom_sorted _ 0 text.length hv).insertionSort_eq,
      apply_replacements_desc_eq_simul d _ text 0 hv] at h
    cases hasc : ascSimulFrom d text 0
        ((rx text).map (fun m => (m.mbegin, m.mend))) with
    | none => rw [hasc] at h; cases h
    | some t =>
      rw [hasc] at h
      dsimp only [Option.map] at h
      rw [Option.some_inj, Prod.mk.injEq] at h
      obtain ⟨h1, h2⟩ := h
      refine ⟨d, by rw [h1], ?_⟩
      rw [hasc, Option.some_inj]
      simpa using h2

def decAscValidFrom : (i n : Nat) → (l : List (Nat × Nat)) →
    Decidable (AscValidFrom i n l)
  | _, _, [] => isTrue trivial
  | i, n, (b, e) :: rest =>
    haveI := decAscValidFrom e n rest
    inferInstanceAs (Decidable (i ≤ b ∧ b < e ∧ e ≤ n ∧ AscValidFrom e n rest))

instance (i n : Nat) (l : List (Nat × Nat)) : Decidable (AscValidFrom i n l) :=
  decAscValidFrom i n l

/-- C2: `_replace_regex` applies the recorded match spans to the text in
descending order of start offset (rightmost first, via
`reversed(sorted(spans))`), each replacement wrapped in one leading and
one trailing space; for a valid `finditer` result (ordered,
non-overlapping, in-bounds spans) the resulting text equals the
simultaneous replacement (`ascSimulFrom`) of all matched spans of the
original text — every piece is a slice of the original text, so no
not-yet-applied span's offsets are invalidated. -/
theorem replace_regex_simultaneous (rx : Regex) (token_class : String)
    (st : TState) (text : Str) (st2 : TState) (out : Str)
    (hv : AscValidFrom 0 text.length
      ((rx text).map (fun m => (m.mbegin, m.mend))))
    (h : replace_regex rx token_class st text = some (st2, out)) :
    ∃ d, process_matches token_class text (rx text) st [] = some (st2, d) ∧
      ascSimulFrom d text 0 ((rx text).map (fun m => (m.mbegin, m.mend))) =
        some out :=
  replace_regex_ascSimul rx token_class st text st2 out hv h

theorem replace_regex_simultaneous_witness :
    AscValidFrom 0 (chars ". .").length
        ((dotMatcher (chars ". .")).map (fun m => (m.mbegin, m.mend))) ∧
    ∃ d, process_matches "symbol" (chars ". .") (dotMatcher (chars ". ."))
          ⟨[], [chars "aaaaaaa", chars "bbbbbbb"]⟩ [] =
        some (⟨[(chars "bbbbbbb", ⟨chars ".", "symbol"⟩),
                (chars "aaaaaaa", ⟨chars ".", "symbol"⟩)], []⟩, d) ∧
      ascSimulFrom d (chars ". .") 0
          ((dotMatcher (chars ". .")).map (fun m => (m.mbegin, m.mend))) =
        some (chars " bbbbbbb   bbbbbbb ") :=
  ⟨by decide, replace_regex_simultaneous dotMatcher "symbol"
    ⟨[], [chars "aaaaaaa", chars "bbbbbbb"]⟩ (chars ". .")
    ⟨[(chars "bbbbbbb", ⟨chars ".", "symbol"⟩),
      (chars "aaaaaaa", ⟨chars ".", "symbol"⟩)], []⟩
    (chars " bbbbbbb   bbbbbbb ") (by decide) (by decide)⟩

/-- C4 (amended): when one `_replace_regex` pass matches the identical substring at two
different spans (no named groups), a fresh placeholder is registered per
match — so two distinct placeholders for that substring end up in the
mapping, both carrying the same original text and class — and the
`replacements` dict, keyed by the literal substring, retains only the
last one, which is substituted at both positions; hence both positions
restore to the same text and class. -/
theorem duplicate_instance_shared_replacement (rx : Regex)
    (token_class : String) (st : TState) (text : Str) (m1 m2 : RMatch)
    (st2 : TState) (out : Str)
    (hrx : rx text = [m1, m2])
    (hg1 : m1.groups = []) (hg2 : m2.groups = [])
    (hv : AscValidFrom 0 text.length
      [(m1.mbegin, m1.mend), (m2.mbegin, m2.mend)])
    (hsame : pySlice text m1.mbegin m1.mend = pySlice text m2.mbegin m2.mend)
    (h : replace_regex rx token_class st text = some (st2, out)) :
    ∃ r1 r2 : Str,
      r1 ≠ r2 ∧
      st2.mapping =
        (r2, ⟨pySlice text m1.mbegin m1.mend, token_class⟩) ::
        (r1, ⟨pySlice text m1.mbegin m1.mend, token_class⟩) :: st.mapping ∧
      out = text.take m1.mbegin ++ ' ' :: (r2 ++ ' ' ::
        (pySlice text m1.mend m2.mbegin ++ ' ' ::
          (r2 ++ ' ' :: text.drop m2.mend))) := by
  have hv' : AscValidFrom 0 text.length
      ((rx text).map (fun m => (m.mbegin, m.mend))) := by
    rw [hrx]
    exact hv
  obtain ⟨d, hproc, hsim⟩ :=
    replace_regex_ascSimul rx token_class st text st2 out hv' h
  rw [hrx] at hproc hsim
  simp only [List.map_cons, List.map_nil] at hsim
  rw [process_matches, if_neg (by simp [hg1])] at hproc
  cases hgu1 : get_unique_string st.mapping text st.rand with
  | none => rw [hgu1] at hproc; cases hproc
  | some pr1 =>
    obtain ⟨r1, rand2⟩ := pr1
    rw [hgu1] at hproc
    dsimp only at hproc
    rw [process_matches, if_neg (by simp [hg2])] at hproc
    cases hgu2 : get_unique_string
        ((r1, ⟨pySlice text m1.mbegin m1.mend, token_class⟩) :: st.mapping)
        text rand2 with
    | none => rw [hgu2] at hproc; cases hproc
    | some pr2 =>
      obtain ⟨r2, rand3⟩ := pr2
      rw [hgu2] at hproc
      dsimp only at hproc
      rw [process_matches, Option.some_inj, Prod.mk.injEq] at hproc
      obtain ⟨hst, hd⟩ := hproc
      have hne : r1 ≠ r2 := by
        intro heq
        have := (get_unique_string_fresh_core _ _ _ _ _ hgu2).1
        rw [← heq] at this
        simp [dlookup] at this
      refine ⟨r1, r2, hne, ?_, ?_⟩
      · rw [← hst]
        rw [hsame]
      · have hl1 : dlookup d (pySlice text m1.mbegin m1.mend) = some r2 := by
          rw [← hd, hsame]
          simp [dlookup]
        have hl2 : dlookup d (pySlice text m2.mbegin m2.mend) = some r2 := by
          rw [← hd]
          simp [dlookup]
        have hcomp : ascSimulFrom d text 0
            [(m1.mbegin, m1.mend), (m2.mbegin, m2.mend)] =
            some (pySlice text 0 m1.mbegin ++ ' ' :: (r2 ++ ' ' ::
              (pySlice text m1.mend m2.mbegin ++ ' ' ::
                (r2 ++ ' ' :: text.drop m2.mend)))) := by
          simp only [ascSimulFrom, hl1, hl2]
        rw [hcomp, Option.some_inj] at hsim
        rw [← hsim, pySlice, List.drop_zero]

theorem duplicate_instance_shared_replacement_witness :
    dotMatcher (chars ". .") = [⟨0, 1, []⟩, ⟨2, 3, []⟩] ∧
    AscValidFrom 0 (chars ". .").length [(0, 1), (2, 3)] ∧
    pySlice (chars ". .") 0 1 = pySlice (chars ". .") 2 3 ∧
    ∃ r1 r2 : Str, r1 ≠ r2 ∧
      (⟨[(chars "bbbbbbb", ⟨chars ".", "symbol"⟩),
         (chars "aaaaaaa", ⟨chars ".", "symbol"⟩)], []⟩ : TState).mapping =
        (r2, ⟨pySlice (chars ". .") 0 1, "symbol"⟩) ::
        (r1, ⟨pySlice (chars ". .") 0 1, "symbol"⟩) ::
        (⟨[], [chars "aaaaaaa", chars "bbbbbbb"]⟩ : TState).mapping ∧
      chars " bbbbbbb   bbbbbbb " =
        (chars ". .").take 0 ++ ' ' :: (r2 ++ ' ' ::
          (pySlice (chars ". .") 1 2 ++ ' ' ::
            (r2 ++ ' ' :: (chars ". .").drop 3))) :=
  ⟨by decide, by decide, by decide,
   duplicate_instance_shared_replacement dotMatcher "symbol"
     ⟨[], [chars "aaaaaaa", chars "bbbbbbb"]⟩ (chars ". .")
     ⟨0, 1, []⟩ ⟨2, 3, []⟩
     ⟨[(chars "bbbbbbb", ⟨chars ".", "symbol"⟩),
       (chars "aaaaaaa", ⟨chars ".", "symbol"⟩)], []⟩
     (chars " bbbbbbb   bbbbbbb ")
     (by decide) (by decide) (by decide) (by decide) (by decide) (by decide)⟩

/-- C4 counterexample: refutes "only one placeholder is registered in the mapping table for
that substring": on text `". ."` the dot rule matches the identical
substring `"."` at spans (0,1) and (2,3); the pass registers TWO
placeholders for it in the mapping (`aaaaaaa`, then `bbbbbbb`; the first
is orphaned), and substitutes the last one at both positions. -/
theorem duplicate_instance_two_placeholders :
    replace_regex dotMatcher "symbol" ⟨[], [chars "aaaaaaa", chars "bbbbbbb"]⟩
        (chars ". .") =
      some (⟨[(chars "bbbbbbb", ⟨chars ".", "symbol"⟩),
              (chars "aaaaaaa", ⟨chars ".", "symbol"⟩)], []⟩,
            chars " bbbbbbb   bbbbbbb ") ∧
    (([(chars "bbbbbbb", ⟨chars ".", "symbol"⟩),
       (chars "aaaaaaa", ⟨chars ".", "symbol"⟩)] : List (Str × Token)).filter
        (fun kv => kv.2.token == chars ".")).length = 2 :=
  ⟨by decide, by decide⟩

theorem sldr_split : ∀ (s : Str), singleLetterDotRuns s = true →
    ∃ segs : List Str, s.splitOn '.' = segs ++ [[]] ∧
      (∀ a ∈ segs, a ≠ [] ∧ ∀ c ∈ a, isAlphaCh c = true) ∧
      segs.length * 2 = s.length
  | [], _ => ⟨[], by simp [List.splitOn, List.splitOnP_nil], by simp, rfl⟩
  | [a], h => by simp [singleLetterDotRuns] at h
  | a :: b :: rest, h => by
    rw [singleLetterDotRuns] at h
    simp only [Bool.and_eq_true, decide_eq_true_eq] at h
    obtain ⟨⟨ha, hb⟩, hrest⟩ := h
    subst hb
    obtain ⟨segs, h1, h2, h3⟩ := sldr_split rest hrest
    have hane : a ≠ '.' := by
      intro he
      subst he
      exact absurd ha (by decide)
    refine ⟨[a] :: segs, ?_, ?_, ?_⟩
    · rw [show a :: '.' :: rest = [a] ++ '.' :: rest from rfl, List.splitOn,
        List.splitOnP_first _ _
          (by intro x hx
              rcases List.mem_singleton.mp hx with rfl
              simp [hane]) '.' (by simp), List.cons_append]
      rw [List.splitOn] at h1
      rw [h1]
    · intro x hx
      rcases List.mem_cons.mp hx with rfl | hx'
      · exact ⟨by simp, by simpa using ha⟩
      · exact h2 x hx'
    · simp only [List.length_cons]
      omega

theorem singleLetter_imp_multipart (s : Str)
    (h : isSingleLetterMultipart s = true) : isMultipartAbbrev s = true := by
  rw [isSingleLetterMultipart, Bool.and_eq_true] at h
  obtain ⟨h1, h2⟩ := h
  have hlen : 4 ≤ s.length := of_decide_eq_true h2
  obtain ⟨segs, hs1, hs2, hs3⟩ := sldr_split s h1
  have hsegs2 : 2 ≤ segs.length := by omega
  have e1 : (s.splitOn '.').length = segs.length + 1 := by
    rw [hs1]
    simp
  have e2 : (s.splitOn '.').getLast? = some [] := by
    rw [hs1]
    exact List.getLast?_concat _
  have e3 : (s.splitOn '.').dropLast = segs := by
    rw [hs1]
    exact List.dropLast_concat
  simp only [isMultipartAbbrev, Bool.and_eq_true]
  refine ⟨⟨?_, ?_⟩, ?_⟩
  · rw [decide_eq_true_eq, e1]
    omega
  · rw [e2]
    simp
  · rw [e3, List.all_eq_true]
    intro x hx
    obtain ⟨hne, hal⟩ := hs2 x hx
    rw [Bool.and_eq_true]
    refine ⟨by simp [hne], ?_⟩
    rw [List.all_eq_true]
    exact hal

/-- C5 (amended): splitting in the final abbreviation pass.  An instance that fully
matches `multipart_abbreviation` — in particular every instance of two or
more single-letter-dot groups, such as `"z.B."` — is split into its
dot-terminated parts, each registered as its own Token of class
"abbreviation" (`"z.B."` yields `"z."` and `"B."`); an instance without
that shape (a plain lexicon literal) is kept as one single
"abbreviation" Token. -/
theorem abbrev_final_pass_split (text : Str) (m : RMatch)
    (ms : List RMatch) (st : TState) (d : List (Str × Str))
    (res : TState × List (Str × Str))
    (hrand : ∀ s ∈ st.rand, validDraw s = true)
    (h : abbrev_process text (m :: ms) st d = some res) :
    (isMultipartAbbrev (pySlice text m.mbegin m.mend) = true →
      ∃ (st2 : TState) (rs : List Str),
        multipart_replace text (abbrevParts (pySlice text m.mbegin m.mend))
            "abbreviation" st = some (st2, joinSpace rs) ∧
        rs.length = (abbrevParts (pySlice text m.mbegin m.mend)).length ∧
        splitWords (' ' :: (joinSpace rs ++ [' '])) = rs ∧
        st2.mapping =
          ((rs.zip (abbrevParts (pySlice text m.mbegin m.mend))).map
              (fun rp => (rp.1, Token.mk rp.2 "abbreviation"))).reverse
            ++ st.mapping ∧
        abbrev_process text ms st2
          ((pySlice text m.mbegin m.mend, joinSpace rs) :: d) = some res) ∧
    (isMultipartAbbrev (pySlice text m.mbegin m.mend) = false →
      ∃ (r : Str) (rand2 : List Str),
        get_unique_string st.mapping text st.rand = some (r, rand2) ∧
        abbrev_process text ms
          ⟨(r, ⟨pySlice text m.mbegin m.mend, "abbreviation"⟩) :: st.mapping,
            rand2⟩
          ((pySlice text m.mbegin m.mend, r) :: d) = some res) ∧
    (∀ s : Str, isSingleLetterMultipart s = true → isMultipartAbbrev s = true) ∧
    abbrevParts (chars "z.B.") = [chars "z.", chars "B."] ∧
    isSingleLetterMultipart (chars "z.B.") = true := by
  rw [abbrev_process] at h
  refine ⟨?_, ?_, singleLetter_imp_multipart, by decide, by decide⟩
  · intro hmp
    rw [if_pos hmp] at h
    cases hrep : multipart_replace text
        (abbrevParts (pySlice text m.mbegin m.mend)) "abbreviation" st with
    | none => rw [hrep] at h; cases h
    | some pr =>
      obtain ⟨st2, mp⟩ := pr
      rw [hrep] at h
      dsimp only at h
      obtain ⟨rs, hd, rfl⟩ := multipart_replace_eq _ _ _ _ _ _ hrep
      obtain ⟨hlen, hmap, hmem⟩ := multipart_draws_spec _ _ _ _ _ _ hd
      refine ⟨st2, rs, rfl, hlen, ?_, hmap, h⟩
      rw [splitWords_wrapped]
      exact splitWords_joinSpace rs
        (fun r hr => validDraw_word r (hrand r (hmem r hr)))
  · intro hmp
    rw [if_neg (by simp [hmp])] at h
    cases hgu : get_unique_string st.mapping text st.rand with
    | none => rw [hgu] at h; cases h
    | some pr =>
      obtain ⟨r, rand2⟩ := pr
      rw [hgu] at h
      dsimp only at h
      exact ⟨r, rand2, rfl, h⟩

/-- Models the `self.abbreviation` regex compiled from a lexicon
containing the literal `ev.luth.`, evaluated on the working text
`"ev.luth."`: the literal matches the whole text (the lookbehind
`(?<![\w.])` holds at position 0, and the lookahead
`(?![[:alpha:]]{1,3}\.)` holds at the end of the text). -/
def evLuthMatcher : Regex := fun s =>
  if s = chars "ev.luth." then [⟨0, 8, []⟩] else []

/-- C5 counterexample: refutes "literal lexicon abbreviation phrases that do not have that
[two or more single-letter-dot groups] shape remain single tokens": the
lexicon literal `ev.luth.` does not have the single-letter-dot shape,
yet the final pass splits it into `ev.` and `luth.` (it fully matches
`multipart_abbreviation = (?:[[:alpha:]]+\.){2,}`, whose groups are runs
of one or MORE letters); no single `ev.luth.` token is registered. -/
theorem multiletter_multipart_split_example :
    isSingleLetterMultipart (chars "ev.luth.") = false ∧
    abbrev_final_pass evLuthMatcher ⟨[], [chars "aaaaaaa", chars "bbbbbbb"]⟩
        (chars "ev.luth.") =
      some (⟨[(chars "bbbbbbb", ⟨chars "luth.", "abbreviation"⟩),
              (chars "aaaaaaa", ⟨chars "ev.", "abbreviation"⟩)], []⟩,
            chars " aaaaaaa bbbbbbb ") ∧
    (([(chars "bbbbbbb", ⟨chars "luth.", "abbreviation"⟩),
       (chars "aaaaaaa", ⟨chars "ev.", "abbreviation"⟩)] :
        List (Str × Token)).filter
        (fun kv => kv.2.token == chars "ev.luth.")).length = 0 :=
  ⟨by decide, by decide, by decide⟩

theorem abbrev_final_pass_split_witness :
    (∀ s ∈ ([chars "aaaaaaa", chars "bbbbbbb"] : List Str),
        validDraw s = true) ∧
    ((isMultipartAbbrev (pySlice (chars "z.B. gilt") 0 4) = true →
      ∃ (st2 : TState) (rs : List Str),
        multipart_replace (chars "z.B. gilt")
            (abbrevParts (pySlice (chars "z.B. gilt") 0 4)) "abbreviation"
            ⟨[], [chars "aaaaaaa", chars "bbbbbbb"]⟩ =
          some (st2, joinSpace rs) ∧
        rs.length = (abbrevParts (pySlice (chars "z.B. gilt") 0 4)).length ∧
        splitWords (' ' :: (joinSpace rs ++ [' '])) = rs ∧
        st2.mapping =
          ((rs.zip (abbrevParts (pySlice (chars "z.B. gilt") 0 4))).map
              (fun rp => (rp.1, Token.mk rp.2 "abbreviation"))).reverse
            ++ (⟨[], [chars "aaaaaaa", chars "bbbbbbb"]⟩ : TState).mapping ∧
        abbrev_process (chars "z.B. gilt") [] st2
          ((pySlice (chars "z.B. gilt") 0 4, joinSpace rs) :: []) =
          some (⟨[(chars "bbbbbbb", ⟨chars "B.", "abbreviation"⟩),
                  (chars "aaaaaaa", ⟨chars "z.", "abbreviation"⟩)], []⟩,
                [(chars "z.B.", chars "aaaaaaa bbbbbbb")])) ∧
     (isMultipartAbbrev (pySlice (chars "z.B. gilt") 0 4) = false →
      ∃ (r : Str) (rand2 : List Str),
        get_unique_string
            (⟨[], [chars "aaaaaaa", chars "bbbbbbb"]⟩ : TState).mapping
            (chars "z.B. gilt")
            (⟨[], [chars "aaaaaaa", chars "bbbbbbb"]⟩ : TState).rand =
          some (r, rand2) ∧
        abbrev_process (chars "z.B. gilt") []
          ⟨(r, ⟨pySlice (chars "z.B. gilt") 0 4, "abbreviation"⟩) ::
              (⟨[], [chars "aaaaaaa", chars "bbbbbbb"]⟩ : TState).mapping,
            rand2⟩
          ((pySlice (chars "z.B. gilt") 0 4, r) :: []) =
          some (⟨[(chars "bbbbbbb", ⟨chars "B.", "abbreviation"⟩),
                  (chars "aaaaaaa", ⟨chars "z.", "abbreviation"⟩)], []⟩,
                [(chars "z.B.", chars "aaaaaaa bbbbbbb")])) ∧
     (∀ s : Str, isSingleLetterMultipart s = true →
        isMultipartAbbrev s = true) ∧
     abbrevParts (chars "z.B.") = [chars "z.", chars "B."] ∧
     isSingleLetterMultipart (chars "z.B.") = true) :=
  ⟨by decide,
   abbrev_final_pass_split (chars "z.B. gilt") ⟨0, 4, []⟩ []
     ⟨[], [chars "aaaaaaa", chars "bbbbbbb"]⟩ []
     (⟨[(chars "bbbbbbb", ⟨chars "B.", "abbreviation"⟩),
        (chars "aaaaaaa", ⟨chars "z.", "abbreviation"⟩)], []⟩,
      [(chars "z.B.", chars "aaaaaaa bbbbbbb")])
     (by decide) (by decide)⟩

theorem replace_regex_multiplicity_witness :
    (∀ s ∈ ([chars "aaaaaaa", chars "bbbbbbb", chars "ccccccc"] : List Str),
        validDraw s = true) ∧
    ((0 < ([("a_open", chars "*"), ("b_middle", chars "abc"),
            ("c_close", chars "*")] : List (String × Str)).length →
      ∃ (st2 : TState) (rs : List Str),
        multipart_replace (chars "*abc*")
            ((sortGroups [("a_open", chars "*"), ("b_middle", chars "abc"),
                ("c_close", chars "*")]).map Prod.snd) "action_word"
            ⟨[], [chars "aaaaaaa", chars "bbbbbbb", chars "ccccccc"]⟩ =
          some (st2, joinSpace rs) ∧
        List.Sorted groupLe (sortGroups [("a_open", chars "*"),
          ("b_middle", chars "abc"), ("c_close", chars "*")]) ∧
        rs.length = ([("a_open", chars "*"), ("b_middle", chars "abc"),
            ("c_close", chars "*")] : List (String × Str)).length ∧
        splitWords (' ' :: (joinSpace rs ++ [' '])) = rs ∧
        st2.mapping =
          ((rs.zip ((sortGroups [("a_open", chars "*"),
              ("b_middle", chars "abc"), ("c_close", chars "*")]).map
                Prod.snd)).map
              (fun rp => (rp.1, Token.mk rp.2 "action_word"))).reverse
            ++ (⟨[], [chars "aaaaaaa", chars "bbbbbbb", chars "ccccccc"]⟩ :
                TState).mapping ∧
        process_matches "action_word" (chars "*abc*") [] st2
          ((pySlice (chars "*abc*") 0 5, joinSpace rs) :: []) =
          some (⟨[(chars "ccccccc", ⟨chars "*", "action_word"⟩),
                  (chars "bbbbbbb", ⟨chars "abc", "action_word"⟩),
                  (chars "aaaaaaa", ⟨chars "*", "action_word"⟩)], []⟩,
                [(chars "*abc*", chars "aaaaaaa bbbbbbb ccccccc")])) ∧
     (([("a_open", chars "*"), ("b_middle", chars "abc"),
          ("c_close", chars "*")] : List (String × Str)).length = 0 →
      ∃ (r : Str) (rand2 : List Str),
        get_unique_string
            (⟨[], [chars "aaaaaaa", chars "bbbbbbb", chars "ccccccc"]⟩ :
              TState).mapping (chars "*abc*")
            (⟨[], [chars "aaaaaaa", chars "bbbbbbb", chars "ccccccc"]⟩ :
              TState).rand = some (r, rand2) ∧
        splitWords (' ' :: (r ++ [' '])) = [r] ∧
        process_matches "action_word" (chars "*abc*") []
          ⟨(r, ⟨pySlice (chars "*abc*") 0 5, "action_word"⟩) ::
              (⟨[], [chars "aaaaaaa", chars "bbbbbbb", chars "ccccccc"]⟩ :
                TState).mapping, rand2⟩
          ((pySlice (chars "*abc*") 0 5, r) :: []) =
          some (⟨[(chars "ccccccc", ⟨chars "*", "action_word"⟩),
                  (chars "bbbbbbb", ⟨chars "abc", "action_word"⟩),
                  (chars "aaaaaaa", ⟨chars "*", "action_word"⟩)], []⟩,
                [(chars "*abc*", chars "aaaaaaa bbbbbbb ccccccc")]))) :=
  ⟨by decide,
   replace_regex_multiplicity "action_word" (chars "*abc*")
     ⟨0, 5, [("a_open", chars "*"), ("b_middle", chars "abc"),
       ("c_close", chars "*")]⟩ []
     ⟨[], [chars "aaaaaaa", chars "bbbbbbb", chars "ccccccc"]⟩ []
     (⟨[(chars "ccccccc", ⟨chars "*", "action_word"⟩),
        (chars "bbbbbbb", ⟨chars "abc", "action_word"⟩),
        (chars "aaaaaaa", ⟨chars "*", "action_word"⟩)], []⟩,
      [(chars "*abc*", chars "aaaaaaa bbbbbbb ccccccc")])
     (by decide) (by decide)⟩

theorem occurs_parts (p u v : Str) : occurs p (u ++ p ++ v) = true := by
  rw [List.append_assoc]
  exact occurs_append_left _ _ _ (occurs_self_append _ _)

theorem occurs_of_eq {p t : Str} (u v : Str) (heq : u ++ p ++ v = t) :
    occurs p t = true := heq ▸ occurs_parts p u v

/-- Any Python slice of a text is a contiguous substring of it. -/
theorem occurs_pySlice (text : Str) (b e : Nat) :
    occurs (pySlice text b e) text = true :=
  occurs_of_eq ((text.take e).take b) (text.drop e)
    (by rw [pySlice, List.take_append_drop, List.take_append_drop])

theorem isPrefixOf_parts : ∀ (p t : Str), p.isPrefixOf t = true →
    ∃ w, p ++ w = t
  | [], t, _ => ⟨t, rfl⟩
  | _ :: _, [], h => by cases h
  | a :: as, b :: bs, h => by
    rw [List.isPrefixOf, Bool.and_eq_true, beq_iff_eq] at h
    obtain ⟨rfl, h2⟩ := h
    obtain ⟨w, hw⟩ := isPrefixOf_parts as bs h2
    exact ⟨w, by rw [List.cons_append, hw]⟩

theorem occurs_to_parts : ∀ (p t : Str), occurs p t = true →
    ∃ u v, u ++ p ++ v = t
  | p, [], h => by
    rw [occurs, List.isEmpty_iff] at h
    exact ⟨[], [], by rw [h]; rfl⟩
  | p, c :: rest, h => by
    rw [occurs, Bool.or_eq_true] at h
    rcases h with h | h
    · obtain ⟨w, hw⟩ := isPrefixOf_parts p (c :: rest) h
      exact ⟨[], w, by rw [List.nil_append, hw]⟩
    · obtain ⟨u, v, huv⟩ := occurs_to_parts p rest h
      exact ⟨c :: u, v, by rw [← huv]; rfl⟩

theorem occurs_trans {x y z : Str} (h1 : occurs x y = true)
    (h2 : occurs y z = true) : occurs x z = true := by
  obtain ⟨u, v, huv⟩ := occurs_to_parts x y h1
  obtain ⟨u2, v2, huv2⟩ := occurs_to_parts y z h2
  refine occurs_of_eq (u2 ++ u) (v ++ v2) ?_
  rw [← huv2, ← huv]
  simp [List.append_assoc]

theorem process_matches_mapping (token_class : String) (text : Str) :
    ∀ (ms : List RMatch) (st : TState) (d : List (Str × Str)) (st2 : TState)
      (d2 : List (Str × Str)),
    process_matches token_class text ms st d = some (st2, d2) →
    (∀ m ∈ ms, ∀ g ∈ m.groups,
      occurs g.2 (pySlice text m.mbegin m.mend) = true) →
    ∀ kv ∈ st2.mapping, kv ∈ st.mapping ∨ occurs kv.2.token text = true := by
  intro ms
  induction ms with
  | nil =>
    intro st d st2 d2 h _ kv hkv
    rw [process_matches, Option.some_inj, Prod.mk.injEq] at h
    rw [h.1]
    exact Or.inl hkv
  | cons m ms ih =>
    intro st d st2 d2 h hg kv hkv
    rw [process_matches] at h
    by_cases hgr : 0 < m.groups.length
    · rw [if_pos hgr] at h
      cases hrep : multipart_replace text ((sortGroups m.groups).map Prod.snd)
          token_class st with
      | none => rw [hrep] at h; cases h
      | some pr =>
        obtain ⟨st3, mp⟩ := pr
        rw [hrep] at h
        dsimp only at h
        obtain ⟨rs, hd, _⟩ := multipart_replace_eq _ _ _ _ _ _ hrep
        obtain ⟨_, hmap, _⟩ := multipart_draws_spec _ _ _ _ _ _ hd
        rcases ih _ _ _ _ h
            (fun m' hm' => hg m' (List.mem_cons_of_mem _ hm')) kv hkv with
          hin | hocc
        · rw [hmap] at hin
          rcases List.mem_append.mp hin with hnew | hold
        -- freshly registered entries carry group values of this match
          · rw [List.mem_reverse] at hnew
            obtain ⟨rp, hrp, hkveq⟩ := List.mem_map.mp hnew
            right
            have hpart : rp.2 ∈ (sortGroups m.groups).map Prod.snd :=
              List.of_mem_zip hrp |>.2
            obtain ⟨g, hgmem, hgeq⟩ := List.mem_map.mp hpart
            rw [sortGroups, List.mem_insertionSort] at hgmem
            have hocc1 : occurs g.2 (pySlice text m.mbegin m.mend) = true :=
              hg m (List.mem_cons_self _ _) g hgmem
            have : kv.2.token = rp.2 := by rw [← hkveq]
            rw [this, ← hgeq]
            exact occurs_trans hocc1 (occurs_pySlice text m.mbegin m.mend)
          · exact Or.inl hold
        · exact Or.inr hocc
    · rw [if_neg hgr] at h
      cases hgu : get_unique_string st.mapping text st.rand with
      | none => rw [hgu] at h; cases h
      | some pr =>
        obtain ⟨r, rand2⟩ := pr
        rw [hgu] at h
        dsimp only at h
        rcases ih _ _ _ _ h
            (fun m' hm' => hg m' (List.mem_cons_of_mem _ hm')) kv hkv with
          hin | hocc
        · rcases List.mem_cons.mp hin with rfl | hold
          · exact Or.inr (occurs_pySlice text m.mbegin m.mend)
          · exact Or.inl hold
        · exact Or.inr hocc

/-- C7 (amended): every token registered in the mapping by a `_replace_regex` pass has
text that is a contiguous substring of the working text at the time the
rule matched (the matched slice itself, or a named-group value inside
it).  Fidelity to the raw input paragraph can still fail, because the
whitespace-normalization substitutions may have altered the working text
before the match (see `arrow_token_not_substring`). -/
theorem mapping_texts_from_working_text (rx : Regex) (token_class : String)
    (st : TState) (text : Str) (st2 : TState) (out : Str)
    (hg : ∀ m ∈ rx text, ∀ g ∈ m.groups,
      occurs g.2 (pySlice text m.mbegin m.mend) = true)
    (h : replace_regex rx token_class st text = some (st2, out)) :
    ∀ kv ∈ st2.mapping, kv ∈ st.mapping ∨ occurs kv.2.token text = true := by
  rw [replace_regex] at h
  cases hp : process_matches token_class text (rx text) st [] with
  | none => rw [hp] at h; cases h
  | some pr =>
    obtain ⟨st3, d⟩ := pr
    rw [hp] at h
    dsimp only at h
    cases happ : apply_replacements d text
        ((sortSpans (((rx text).map
          (fun m => (m.mbegin, m.mend))).dedup)).reverse) with
    | none => rw [happ] at h; cases h
    | some t2 =>
      rw [happ] at h
      dsimp only at h
      rw [Option.some_inj, Prod.mk.injEq] at h
      rw [← h.1]
      exact process_matches_mapping token_class text (rx text) st [] st3 d hp hg

theorem mapping_texts_from_working_text_witness :
    (∀ m ∈ dotMatcher (chars ". ."), ∀ g ∈ m.groups,
      occurs g.2 (pySlice (chars ". .") m.mbegin m.mend) = true) ∧
    (∀ kv ∈ (⟨[(chars "bbbbbbb", ⟨chars ".", "symbol"⟩),
               (chars "aaaaaaa", ⟨chars ".", "symbol"⟩)], []⟩ : TState).mapping,
      kv ∈ (⟨[], [chars "aaaaaaa", chars "bbbbbbb"]⟩ : TState).mapping ∨
        occurs kv.2.token (chars ". .") = true) :=
  ⟨by decide,
   mapping_texts_from_working_text dotMatcher "symbol"
     ⟨[], [chars "aaaaaaa", chars "bbbbbbb"]⟩ (chars ". .")
     ⟨[(chars "bbbbbbb", ⟨chars ".", "symbol"⟩),
       (chars "aaaaaaa", ⟨chars ".", "symbol"⟩)], []⟩
     (chars " bbbbbbb   bbbbbbb ") (by decide) (by decide)⟩

/-- C7 counterexample: refutes token text fidelity.  On input `"- >"`, the arrow
normalization `space_right_arrow.sub(r'\1\2', ...)` deletes the inner
whitespace, the arrow rule then matches `->`, and the emitted Token text
`->` is not a contiguous substring of the original input `"- >"`. -/
theorem arrow_token_not_substring :
    tokenize_out cRules ⟨true, true⟩ [chars "aaaaaaa"] (chars "- >") =
      some (Output.classed [⟨chars "->", "symbol"⟩]) ∧
    occurs (chars "->") (chars "- >") = false ∧
    validDraw (chars "aaaaaaa") = true :=
  ⟨by decide, by decide, by decide⟩
